import Mathlib

/-!
Shallow embedding of the core analysis pipeline of the `neodepends`
repository (Rust), for checking its natural-language specification.

Every definition is translated from the Rust sources under `src/`:
`sparse_vec.rs`, `core.rs`, `tagging.rs`, `extraction.rs`, `filesystem.rs`,
`languages.rs`, `spec.rs`.  Machine integers (`usize`) are modelled as `Nat`
with release-mode wrapping arithmetic made explicit (`% 2 ^ 64`) at the two
places the source subtracts or adds one (`start - 1`, `end + 1`,
`old_start - 1`).  SHA-1 hashes (`Sha1Hash`) are modelled injectively by
their pre-image byte string, so equal inputs give equal hashes, which is the
only property the claims use.  Rust `panic!`/`unwrap` failures are modelled
with `Except`/`Option` where a claim depends on them.
-/

namespace Neodepends

/-! ## usize arithmetic (release-mode wrapping) -/

/-- The modulus of `usize` on a 64-bit target. -/
def USIZE : Nat := 2 ^ 64

/-- `usize::MAX`. -/
def usizeMax : Nat := USIZE - 1

/-- Wrapping `n - 1` on `usize` (release build semantics). -/
def usub1 (n : Nat) : Nat := (n + (USIZE - 1)) % USIZE

/-- Wrapping `n + 1` on `usize`. -/
def uadd1 (n : Nat) : Nat := (n + 1) % USIZE

/-! ## `sparse_vec.rs` -/

/-- `Interval` of `sparse_vec.rs`: an inclusive integer interval.  The source
field `end` is a Lean keyword and is called `stop` here. -/
structure Interval where
  start : Nat
  stop : Nat
deriving DecidableEq, Repr

/-- `Interval::try_new`. -/
def Interval.tryNew (start stop : Nat) : Option Interval :=
  if start ≤ stop then some ⟨start, stop⟩ else none

/-- `Entry` of `sparse_vec.rs`. -/
structure Entry (α : Type) where
  key : Interval
  value : α
deriving DecidableEq, Repr

instance [Inhabited α] : Inhabited (Entry α) := ⟨⟨⟨0, 0⟩, default⟩⟩

/-- `Entry::try_from_triple`. -/
def Entry.tryFromTriple (t : Nat × Nat × α) : Option (Entry α) :=
  (Interval.tryNew t.1 t.2.1).map (fun k => ⟨k, t.2.2⟩)

/-- A `SparseVec<T>` is its vector of entries. -/
abbrev SparseVec (α : Type) := List (Entry α)

/-- The comparator inside `SparseVec::search`: positions an entry against a
query point. -/
def entryCmp (e : Entry α) (point : Nat) : Ordering :=
  if e.key.stop < point then .lt
  else if point < e.key.start then .gt
  else .eq

/-- The loop of Rust's `slice::binary_search_by`, exactly as `core` implements
it (`mid = left + size / 2`, halving until `left = right`).  The source relies
on the entries being sorted; on a corrupted vector this returns whatever the
real loop returns, which is what the claims examine.  The loop shrinks
`right - left` every iteration, so `right - left` (at most the length) bounds
the iteration count; the recursion is written on that bound as structural
fuel, and `SparseVec.search` supplies enough of it for the fuel to never run
out. -/
def bsearchGo [Inhabited α] (entries : List (Entry α)) (point : Nat) :
    Nat → Nat → Nat → Except Nat Nat
  | 0, left, _ => .error left
  | fuel + 1, left, right =>
    if left < right then
      let mid := left + (right - left) / 2
      match entryCmp (entries.getD mid default) point with
      | .lt => bsearchGo entries point fuel (mid + 1) right
      | .gt => bsearchGo entries point fuel left mid
      | .eq => .ok mid
    else
      .error left

/-- `SparseVec::search`. -/
def SparseVec.search [Inhabited α] (v : SparseVec α) (point : Nat) : Except Nat Nat :=
  bsearchGo v point (v.length + 1) 0 v.length

/-- `SparseVec::get`. -/
def SparseVec.get [Inhabited α] (v : SparseVec α) (point : Nat) : Option α :=
  match SparseVec.search v point with
  | .ok i => some (v.getD i default).value
  | .error _ => none

/-- `SparseVec::find_overlapping_indices`, returned as the pair `(i, j)` of
the Rust `Range` `i..j`. -/
def SparseVec.findOverlappingIndices [Inhabited α] (v : SparseVec α)
    (key : Interval) : Nat × Nat :=
  let i := match SparseVec.search v key.start with
    | .ok i => i
    | .error i => i
  let j := match SparseVec.search v key.stop with
    | .ok j => j + 1
    | .error j => j
  (i, j)

/-- `SparseVec::insert_many`.  The triple arithmetic `start - 1` and `end + 1`
is `usize` arithmetic: in a release build it wraps, which is modelled by
`usub1`/`uadd1`.  (`Interval::new` would panic for `start > stop`; every
caller in the repository and in the claims satisfies `start ≤ stop`.) -/
def SparseVec.insertMany [Inhabited α] (v : SparseVec α) (start stop : Nat)
    (value : α) : SparseVec α :=
  let key : Interval := ⟨start, stop⟩
  let ij := SparseVec.findOverlappingIndices v key
  let i := ij.1
  let j := ij.2
  if j ≤ i then
    v.take i ++ [⟨key, value⟩] ++ v.drop i
  else
    let ea := v.getD i default
    let ez := v.getD (j - 1) default
    let reps := [(ea.key.start, usub1 start, ea.value),
                 (start, stop, value),
                 (uadd1 stop, ez.key.stop, ez.value)].filterMap Entry.tryFromTriple
    v.take i ++ reps ++ v.drop j

/-- A `Counter<T>` (the `counter` crate): modelled as an association list in
first-insertion order; the Rust value is a `HashMap`, whose iteration order
no claim depends on. -/
abbrev Counter (α : Type) := List (α × Nat)

/-- Add `w` to the count of `x` (`counts[&x] += w`). -/
def Counter.add [DecidableEq α] : Counter α → α → Nat → Counter α
  | [], x, w => [(x, w)]
  | (y, n) :: rest, x, w =>
    if y = x then (y, n + w) :: rest else (y, n) :: Counter.add rest x w

/-- Indexing a counter (`counts[&x]`, 0 when absent). -/
def Counter.get [DecidableEq α] (c : Counter α) (x : α) : Nat :=
  match c.find? (fun p => p.1 = x) with
  | some p => p.2
  | none => 0

/-- `counter.contains_key(&x)`. -/
def Counter.containsKey [DecidableEq α] (c : Counter α) (x : α) : Bool :=
  (c.find? (fun p => p.1 = x)).isSome

/-- The keys of a counter. -/
def Counter.keysOf (c : Counter α) : List α := c.map (·.1)

/-- `SparseVec::get_overlaps`: each overlapping entry contributes
`1 + min(entry.end, end) - max(entry.start, start)` to its value's count. -/
def SparseVec.getOverlaps [Inhabited α] [DecidableEq α] (v : SparseVec α)
    (start stop : Nat) : Counter α :=
  let ij := SparseVec.findOverlappingIndices v ⟨start, stop⟩
  ((List.range (ij.2 - ij.1)).map (fun k => v.getD (ij.1 + k) default)).foldl
    (fun c e => c.add e.value (1 + min e.key.stop stop - max e.key.start start)) []

/-! ## `core.rs`: positions, spans and their ordering -/

/-- `Position` of `core.rs`. -/
structure Position where
  byte : Nat
  row : Nat
  column : Nat
deriving DecidableEq, Repr

/-- Derived `Ord` of `Position`: lexicographic on `(byte, row, column)`. -/
def posCmp (a b : Position) : Ordering :=
  (compare a.byte b.byte).then ((compare a.row b.row).then (compare a.column b.column))

/-- `Span` of `core.rs` (an inclusive range of text).  The source field `end`
is called `stop` here. -/
structure Span where
  start : Position
  stop : Position
deriving DecidableEq, Repr

/-- The hand-written `PartialOrd`/`Ord` impl of `Span` in `core.rs`: compare
starts; on a tie the source compares `self.end` with `other.start` (not
`other.end`) and reverses the result. -/
def spanCmp (a b : Span) : Ordering :=
  match posCmp a.start b.start with
  | .lt => .lt
  | .gt => .gt
  | .eq => (posCmp a.stop b.start).swap

/-! ## `core.rs`: kinds, identities, entities -/

/-- `EntityKind` of `core.rs`, variants in declaration order. -/
inductive EntityKind where
  | File
  | Annotation
  | Constructor
  | Class
  | Enum
  | Field
  | Interface
  | Method
  | Record
deriving DecidableEq, Repr

/-- The declaration index of a kind (the derived `Ord` compares these). -/
def EntityKind.idx : EntityKind → Nat
  | .File => 0
  | EntityKind.Annotation => 1
  | .Constructor => 2
  | .Class => 3
  | .Enum => 4
  | .Field => 5
  | .Interface => 6
  | .Method => 7
  | .Record => 8

/-- Derived `Ord` of `EntityKind`. -/
def kindCmp (a b : EntityKind) : Ordering := compare a.idx b.idx

/-- `strum::AsRefStr`: the variant name of a kind. -/
def EntityKind.asRef : EntityKind → String
  | .File => "File"
  | EntityKind.Annotation => "Annotation"
  | .Constructor => "Constructor"
  | .Class => "Class"
  | .Enum => "Enum"
  | .Field => "Field"
  | .Interface => "Interface"
  | .Method => "Method"
  | .Record => "Record"

/-- A `Sha1Hash`, modelled injectively by the byte string it hashes (two
hashes are equal exactly when their inputs are; no claim needs more of
SHA-1 than that). -/
abbrev Sha1Hash := List Nat

/-- `Sha1Hash::default()`: twenty zero bytes (also git's zero oid). -/
def sha1Default : Sha1Hash := List.replicate 20 0

/-- The bytes of a string (`str::as_bytes`, modelled per character). -/
def strBytes (s : String) : List Nat := s.toList.map Char.toNat

/-- `ContentId`: the id git gives a blob, a function of the content alone. -/
abbrev ContentId := Sha1Hash

/-- `ContentId::from_content`. -/
def ContentId.fromContent (content : String) : ContentId := strBytes content

/-- `SimpleEntityId`. -/
abbrev SimpleEntityId := Sha1Hash

/-- `SimpleEntityId::new`: hashes only the parent id (or the default hash),
the name and the kind string. -/
def SimpleEntityId.new (parentId : Option SimpleEntityId) (name : String)
    (kind : EntityKind) : SimpleEntityId :=
  (parentId.getD sha1Default) ++ strBytes name ++ strBytes kind.asRef

/-- `EntityId`. -/
abbrev EntityId := Sha1Hash

/-- The `to_bytes` helper inside `EntityId::new`: a coordinate as a big-endian
`u32`. -/
def natBytes4 (n : Nat) : List Nat :=
  [n / 2 ^ 24 % 256, n / 2 ^ 16 % 256, n / 2 ^ 8 % 256, n % 256]

/-- `EntityId::new`: additionally hashes the six span coordinates, the
content id and the simple id. -/
def EntityId.new (parentId : Option EntityId) (name : String) (kind : EntityKind)
    (location : Span) (contentId : ContentId) (simpleId : SimpleEntityId) : EntityId :=
  (parentId.getD sha1Default) ++ strBytes name ++ strBytes kind.asRef ++
    natBytes4 location.start.byte ++ natBytes4 location.start.row ++
    natBytes4 location.start.column ++ natBytes4 location.stop.byte ++
    natBytes4 location.stop.row ++ natBytes4 location.stop.column ++
    contentId ++ simpleId

/-- `Entity` of `core.rs` (the `comment` span that some source versions carry
plays no part in any claim and is omitted). -/
structure Entity where
  id : EntityId
  parentId : Option EntityId
  name : String
  kind : EntityKind
  location : Span
  contentId : ContentId
  simpleId : SimpleEntityId
deriving DecidableEq, Repr

/-- `Entity::new`: the id is computed from the other fields. -/
def Entity.new (parentId : Option EntityId) (name : String) (kind : EntityKind)
    (location : Span) (contentId : ContentId) (simpleId : SimpleEntityId) : Entity :=
  ⟨EntityId.new parentId name kind location contentId simpleId,
   parentId, name, kind, location, contentId, simpleId⟩

/-- `FileKey` of `core.rs`. -/
structure FileKey where
  filename : String
  contentId : ContentId
deriving DecidableEq, Repr

/-- `PartialPosition` of `core.rs`. -/
inductive PartialPosition where
  | Row (r : Nat)
  | Whole (p : Position)
deriving DecidableEq, Repr

/-- `PartialSpan` of `core.rs`. -/
inductive PartialSpan where
  | Row (s e : Nat)
  | Whole (s : Span)
deriving DecidableEq, Repr

/-- `CommitId`, opaque to every claim: a plain number. -/
abbrev CommitId := Nat

/-- `ChangeKind` of `core.rs`. -/
inductive ChangeKind where
  | Added
  | Deleted
  | Modified
deriving DecidableEq, Repr

/-- `Change` of `core.rs`. -/
structure Change where
  simpleId : SimpleEntityId
  commitId : CommitId
  kind : ChangeKind
  adds : Nat
  dels : Nat
deriving DecidableEq, Repr

/-- `Hunk` of `core.rs`. -/
structure Hunk where
  old : PartialSpan
  new : PartialSpan
deriving DecidableEq, Repr

/-- `Hunk::from_git`: each side becomes `Row(start - 1, start - 1 + line_count)`
in `usize` arithmetic (the git inputs are 1-based). -/
def Hunk.fromGit (oldStart oldLines newStart newLines : Nat) : Hunk :=
  let os := usub1 oldStart
  let ns := usub1 newStart
  ⟨.Row os ((os + oldLines) % USIZE), .Row ns ((ns + newLines) % USIZE)⟩

/-- `Diff` of `core.rs`. -/
structure Diff where
  commitId : CommitId
  old : Option FileKey
  new : Option FileKey
  hunks : List Hunk
deriving DecidableEq, Repr

/-- `Diff::iter_old_spans`. -/
def Diff.iterOldSpans (d : Diff) : List PartialSpan := d.hunks.map (·.old)

/-- `Diff::iter_new_spans`. -/
def Diff.iterNewSpans (d : Diff) : List PartialSpan := d.hunks.map (·.new)

/-! ## `tagging.rs`: location tables and entity sets -/

/-- `LocationTable` of `tagging.rs`. -/
structure LocationTable where
  ids : List EntityId
  bytes : SparseVec EntityId
  rows : SparseVec EntityId
deriving Repr

instance : Inhabited EntityKind := ⟨.File⟩

/-- `LocationTable::from_topo_slice`: the root entity (no parent) is widened
to `[usize::MIN, usize::MAX]` on both axes; every other entity is inserted
over its span's bytes and rows. -/
def LocationTable.fromTopoSlice (entities : List Entity) : LocationTable :=
  entities.foldl
    (fun t e =>
      match e.parentId with
      | none =>
        ⟨t.ids ++ [e.id],
         SparseVec.insertMany t.bytes 0 usizeMax e.id,
         SparseVec.insertMany t.rows 0 usizeMax e.id⟩
      | some _ =>
        ⟨t.ids ++ [e.id],
         SparseVec.insertMany t.bytes e.location.start.byte e.location.stop.byte e.id,
         SparseVec.insertMany t.rows e.location.start.row e.location.stop.row e.id⟩)
    ⟨[], [], []⟩

/-- `LocationTable::find_id`. -/
def LocationTable.findId (t : LocationTable) (position : PartialPosition) : Option EntityId :=
  match position with
  | .Row row => SparseVec.get t.rows row
  | .Whole whole => SparseVec.get t.bytes whole.byte

/-- `LocationTable::find_ids`. -/
def LocationTable.findIds (t : LocationTable) (span : PartialSpan) : Counter EntityId :=
  match span with
  | .Row s e => SparseVec.getOverlaps t.rows s e
  | .Whole whole => SparseVec.getOverlaps t.bytes whole.start.byte whole.stop.byte

/-- `EntitySet` of `tagging.rs`: the topologically ordered entities (the Rust
`HashMap<EntityId, Entity>` is modelled by the list, looked up by id) and the
location table. -/
structure EntitySet where
  entities : List Entity
  table : LocationTable
deriving Repr

/-- `EntitySet::from_topo_vec`. -/
def EntitySet.fromTopoVec (tags : List Entity) : EntitySet :=
  ⟨tags, LocationTable.fromTopoSlice tags⟩

/-- `EntitySet::find_id`. -/
def EntitySet.findId (s : EntitySet) (position : PartialPosition) : Option EntityId :=
  s.table.findId position

/-- `self.entities[&id]` of `tagging.rs`. -/
def EntitySet.entityById (s : EntitySet) (id : EntityId) : Option Entity :=
  s.entities.find? (fun e => e.id = id)

/-- `EntitySet::count_simple_ids`: each span's entity-id counts are mapped to
the entities' simple ids and summed into one counter. -/
def EntitySet.countSimpleIds (s : EntitySet) (spans : List PartialSpan) :
    Counter SimpleEntityId :=
  spans.foldl
    (fun c span =>
      (s.table.findIds span).foldl
        (fun c p =>
          match s.entityById p.1 with
          | some e => c.add e.simpleId p.2
          | none => c.add sha1Default p.2)
        c)
    []

/-! ## `tagging.rs`: captures and `into_entity_set` -/

/-- `Capture` of `tagging.rs` (the optional comment span plays no part in any
claim and is omitted).  `id` and `ancestorIds` are tree-sitter node ids. -/
structure Capture where
  id : Nat
  ancestorIds : List Nat
  name : String
  kind : EntityKind
  code : Span
deriving DecidableEq, Repr

instance : Inhabited Capture := ⟨⟨0, [], "", .File, ⟨⟨0, 0, 0⟩, ⟨0, 0, 0⟩⟩⟩⟩

/-- `Capture::singleton`. -/
def Capture.singleton (filename : String) (endPosition : Position) : Capture :=
  ⟨0, [], filename, .File, ⟨⟨0, 0, 0⟩, endPosition⟩⟩

/-- `Capture::find_parent_id`: the first ancestor node id that is itself a
capture. -/
def findParentId (c : Capture) (captureIds : List Nat) : Option Nat :=
  c.ancestorIds.find? (fun a => captureIds.contains a)

/-- `Capture::topo_key` comparison: `(ancestor_ids.len(), code, name, kind)`
with the source's `Span` ordering. -/
def Capture.topoCmp (a b : Capture) : Ordering :=
  (compare a.ancestorIds.length b.ancestorIds.length).then
    ((spanCmp a.code b.code).then ((compare a.name b.name).then (kindCmp a.kind b.kind)))

/-- The boolean order used to model `sorted_by_cached_key` (a stable sort). -/
def Capture.topoLe (a b : Capture) : Bool :=
  match Capture.topoCmp a b with
  | .gt => false
  | _ => true

/-- Lookup in the `simple_ids` / `entity_ids` maps of `into_entity_set`
(modelled as association lists; capture ids are `HashMap` keys and hence
distinct). -/
def lookupHash (m : List (Nat × Sha1Hash)) (k : Nat) : Option Sha1Hash :=
  (m.find? (fun p => p.1 = k)).map (·.2)

/-- The loop state of `into_entity_set`. -/
structure TagState where
  simpleIds : List (Nat × SimpleEntityId)
  entityIds : List (Nat × EntityId)
  entities : List Entity

/-- One iteration of the `into_entity_set` loop.  The source unwraps the
parent lookups, which cannot fail because the captures are processed parents
first; the model defaults to `sha1Default` on that unreachable branch. -/
def intoEntitiesStep (captureIds : List Nat) (contentId : ContentId)
    (st : TagState) (c : Capture) : TagState :=
  let parentCaptureId := findParentId c captureIds
  let parentSimpleId := parentCaptureId.map
    (fun pid => (lookupHash st.simpleIds pid).getD sha1Default)
  let simpleId := SimpleEntityId.new parentSimpleId c.name c.kind
  let parentEntityId := parentCaptureId.map
    (fun pid => (lookupHash st.entityIds pid).getD sha1Default)
  let entity := Entity.new parentEntityId c.name c.kind c.code contentId simpleId
  ⟨(c.id, simpleId) :: st.simpleIds, (c.id, entity.id) :: st.entityIds,
   st.entities ++ [entity]⟩

/-- The `into_entity_set` loop over an already ordered capture list. -/
def intoEntitiesGo (captureIds : List Nat) (contentId : ContentId)
    (caps : List Capture) : TagState :=
  caps.foldl (intoEntitiesStep captureIds contentId) ⟨[], [], []⟩

/-- `into_entity_set` of `tagging.rs`: captures (the values of the Rust
`HashMap`) sorted by `topo_key` (`sorted_by_cached_key`, a stable sort,
modelled by the stable `insertionSort`), then folded into entities. -/
def intoEntitySetFromCaptures (caps : List Capture) (contentId : ContentId) : EntitySet :=
  EntitySet.fromTopoVec
    (intoEntitiesGo (caps.map (·.id)) contentId
      (List.insertionSort (fun a b => Capture.topoLe a b = true) caps)).entities

/-! ## `tagging.rs`: `to_singleton_entity_set` -/

/-- `str::split_inclusive('\n')`: pieces end with the newline; a trailing
piece without a newline is kept, an empty trailing piece is not produced. -/
def splitInclusiveAux : List Char → List Char → List (List Char)
  | [], acc => if acc.isEmpty then [] else [acc.reverse]
  | c :: rest, acc =>
    if c = '\n' then (acc.reverse ++ ['\n']) :: splitInclusiveAux rest []
    else splitInclusiveAux rest (c :: acc)

/-- `content.split_inclusive('\n')` as a list of character lists. -/
def splitInclusive (content : String) : List (List Char) :=
  splitInclusiveAux content.toList []

/-- The end position `to_singleton_entity_set` computes:
`enumerate().last()` of the inclusive split gives `(end_row, end_line)`, and
the position is `(content.len(), end_row, end_line.len())`, or row and column
zero for empty content.  Lengths are modelled per character (the source
counts bytes; the two agree on ASCII content, which every claim uses). -/
def singletonEndPosition (content : String) : Position :=
  let parts := splitInclusive content
  if parts.isEmpty then ⟨content.length, 0, 0⟩
  else ⟨content.length, parts.length - 1, (parts.getLastD []).length⟩

/-- `to_singleton_entity_set` of `tagging.rs`. -/
def toSingletonEntitySet (filename content : String) : EntitySet :=
  intoEntitySetFromCaptures
    [Capture.singleton filename (singletonEndPosition content)]
    (ContentId.fromContent content)

/-! ## `extraction.rs`: `calc_changes` -/

/-- The `entity_sets` map of `extraction.rs`, modelled as an association
list. -/
def lookupEntitySet (sets : List (FileKey × EntitySet)) (k : FileKey) : Option EntitySet :=
  (sets.find? (fun p => p.1 = k)).map (·.2)

/-- `calc_changes` of `extraction.rs`.  Note the faithful argument order of
the final `Change::new(id, commit, kind, old_counts[id], new_counts[id])`:
the old-side count lands in `adds` and the new-side count in `dels`. -/
def calcChanges (entitySets : List (FileKey × EntitySet)) (diff : Diff) : List Change :=
  let oldSet := diff.old.bind (lookupEntitySet entitySets)
  let newSet := diff.new.bind (lookupEntitySet entitySets)
  let oldIds := oldSet.map (fun s => s.countSimpleIds diff.iterOldSpans)
  let newIds := newSet.map (fun s => s.countSimpleIds diff.iterNewSpans)
  let oldCounts : Counter SimpleEntityId := oldIds.getD []
  let newCounts : Counter SimpleEntityId := newIds.getD []
  let ids := (Counter.keysOf oldCounts ++ Counter.keysOf newCounts).dedup
  ids.map (fun id =>
    let inOld := Counter.containsKey oldCounts id
    let inNew := Counter.containsKey newCounts id
    let kind := match inOld, inNew with
      | false, false => ChangeKind.Modified
      | false, true => ChangeKind.Added
      | true, false => ChangeKind.Deleted
      | true, true => ChangeKind.Modified
    Change.mk id diff.commitId kind (Counter.get oldCounts id) (Counter.get newCounts id))

/-! ## `languages.rs`: language lookup, and the `ensure_entity_sets` step of
`extraction.rs` -/

/-- `Lang` of `languages.rs`. -/
inductive Lang where
  | C
  | Cpp
  | Go
  | Java
  | JavaScript
  | Kotlin
  | Python
  | Ruby
  | TypeScript
deriving DecidableEq, Repr

/-- The `special_files` table built by `languages.rs` (keys stored
lowercased). -/
def specialFiles : List (String × Lang) := [("tsconfig.json", Lang.TypeScript)]

/-- The `extensions` table built by `languages.rs` (keys stored lowercased). -/
def extensionTable : List (String × Lang) :=
  [("c", Lang.C), ("c++", Lang.Cpp), ("cc", Lang.Cpp), ("cpp", Lang.Cpp),
   ("cxx", Lang.Cpp), ("h++", Lang.Cpp), ("hh", Lang.Cpp), ("hpp", Lang.Cpp),
   ("hxx", Lang.Cpp), ("go", Lang.Go), ("java", Lang.Java), ("js", Lang.JavaScript),
   ("kt", Lang.Kotlin), ("py", Lang.Python), ("rb", Lang.Ruby), ("ts", Lang.TypeScript)]

/-- `str::to_lowercase`, per character. -/
def lowerChars (s : String) : List Char := s.toList.map Char.toLower

/-- `str::split('.')` over characters (empty pieces included, as in Rust). -/
def splitOnCharAux (sep : Char) : List Char → List Char → List (List Char)
  | [], acc => [acc.reverse]
  | c :: rest, acc =>
    if c = sep then acc.reverse :: splitOnCharAux sep rest []
    else splitOnCharAux sep rest (c :: acc)

/-- `str::split('.')` of a character list. -/
def splitOnChar (sep : Char) (cs : List Char) : List (List Char) :=
  splitOnCharAux sep cs []

/-- `LangLookupTable::get_lang` / `Lang::of`: the special-files table is
consulted with the raw filename; otherwise the last dot-separated piece of
the lowercased filename is looked up among the extensions. -/
def langOf (filename : String) : Option Lang :=
  match (specialFiles.find? (fun p => p.1 = filename)).map (·.2) with
  | some l => some l
  | none =>
    let ext := (splitOnChar '.' (lowerChars filename)).getLastD []
    (extensionTable.find? (fun p => p.1.toList = ext)).map (·.2)

/-- The per-file body of `Extractor::ensure_entity_sets`: the source runs
`Lang::of(&f.filename).unwrap()` before tagging, so a filename with no
registered language panics (modelled as `Except.error`); otherwise the
language's tagger runs (tree-sitter, abstracted as `tagF`). -/
def ensureEntitySetFile (tagF : Lang → String → String → Bool → EntitySet)
    (fileLevel : Bool) (filename content : String) : Except String EntitySet :=
  match langOf filename with
  | none => Except.error "called Option unwrap on a None value"
  | some lang => Except.ok (tagF lang filename content fileLevel)

/-! ## `spec.rs`: pathspecs -/

/-- The flags `git2::PathspecFlags` passed to `matches_path` (only the
ignore-case bit matters to any claim). -/
structure PathspecFlags where
  ignoreCase : Bool
deriving DecidableEq, Repr

/-- `git2::PathspecFlags::IGNORE_CASE`, the flag value the source always
passes. -/
def ignoreCaseFlag : PathspecFlags := ⟨true⟩

/-- `Pathspec` of `spec.rs`: its patterns (the compiled `git2::Pathspec` is
the external matcher, taken as a parameter where matching is modelled). -/
structure Pathspec where
  patterns : List String
deriving DecidableEq, Repr

/-- `Pathspec::matches`: always calls the underlying matcher with
`IGNORE_CASE`, on every platform.  `matchesPath` abstracts
`git2::Pathspec::matches_path`. -/
def Pathspec.matchesWith
    (matchesPath : List String → String → PathspecFlags → Bool)
    (ps : Pathspec) (path : String) : Bool :=
  matchesPath ps.patterns path ignoreCaseFlag

/-! ## `core.rs`: `FileSet` -/

/-- Lexicographic comparison of byte lists (`[u8; 20]` / derived `Ord`). -/
def listNatCmp : List Nat → List Nat → Ordering
  | [], [] => .eq
  | [], _ :: _ => .lt
  | _ :: _, [] => .gt
  | a :: as', b :: bs' => (compare a b).then (listNatCmp as' bs')

/-- Derived `Ord` of `FileKey`: filename, then content id. -/
def fileKeyCmp (a b : FileKey) : Ordering :=
  (compare a.filename b.filename).then (listNatCmp a.contentId b.contentId)

/-- The boolean order used to model `Itertools::sorted` on `FileKey`s. -/
def fileKeyLe (a b : FileKey) : Bool :=
  match fileKeyCmp a b with
  | .gt => false
  | _ => true

/-- `FileSet` of `core.rs` (the derived filename and content-id maps are
determined by the key list and are not separately modelled). -/
structure FileSet where
  fileKeys : List FileKey
deriving Repr

/-- The duplicate check of `FileSet::new`'s loop: inserting each filename
into the `filenames` map panics when the name was already present. -/
def checkUniqueFilenames : List FileKey → List String → Except String Unit
  | [], _ => Except.ok ()
  | k :: rest, seen =>
    if k.filename ∈ seen then Except.error "filenames must be unique"
    else checkUniqueFilenames rest (k.filename :: seen)

/-- `FileSet::new`: sort the keys (`Itertools::sorted`, stable, modelled by
the stable `insertionSort`), then panic (here: error) on any duplicate
filename. -/
def FileSet.new (keys : List FileKey) : Except String FileSet :=
  let sorted := List.insertionSort (fun a b => fileKeyLe a b = true) keys
  (checkUniqueFilenames sorted []).map (fun _ => ⟨sorted⟩)

/-! ## `filesystem.rs`: `diff_with_parent`

The git library (`git2`) is external to the repository: commits, trees and
`diff_tree_to_tree` are abstracted into a `GitRepo` record, while everything
`diff_with_parent` itself does — parent dispatch, the diff options it builds,
pathspec filtering, status checking, `to_file_key`, grouping hunks per
`(old, new)` pair and sorting — is translated from the source. -/

/-- `git2::Delta` statuses as `diff_with_parent` distinguishes them. -/
inductive DeltaStatus where
  | Added
  | Deleted
  | Modified
  | Other (s : String)
deriving DecidableEq, Repr

/-- One side of a `git2::DiffDelta`. -/
structure GitFile where
  path : Option String
  oid : Sha1Hash
deriving DecidableEq, Repr

/-- A `git2::DiffDelta`. -/
structure GitDelta where
  status : DeltaStatus
  oldFile : GitFile
  newFile : GitFile
deriving DecidableEq, Repr

/-- A `git2::DiffHunk` (1-based starts and line counts). -/
structure GitHunk where
  oldStart : Nat
  oldLines : Nat
  newStart : Nat
  newLines : Nat
deriving DecidableEq, Repr

/-- `git2::DiffOptions` (the two fields the source sets). -/
structure DiffOpts where
  ignoreFilemode : Bool
  contextLines : Nat
deriving DecidableEq, Repr

/-- `DiffOptions::new` defaults. -/
def DiffOpts.new : DiffOpts := ⟨false, 3⟩

/-- `opts.ignore_filemode(b)`. -/
def DiffOpts.withIgnoreFilemode (o : DiffOpts) (b : Bool) : DiffOpts :=
  ⟨b, o.contextLines⟩

/-- `opts.context_lines(n)`. -/
def DiffOpts.withContextLines (o : DiffOpts) (n : Nat) : DiffOpts :=
  ⟨o.ignoreFilemode, n⟩

/-- A git commit as `diff_with_parent` consumes it: its parents' trees and
its own tree. -/
structure GitCommit (Tree : Type) where
  parentTrees : List Tree
  tree : Tree

/-- The slice of `git2::Repository` behaviour `diff_with_parent` consumes:
commit lookup and tree-to-tree diffing (deltas paired with their hunks, as
`Diff::foreach` delivers them). -/
structure GitRepo (Tree : Type) where
  findCommit : CommitId → Option (GitCommit Tree)
  diffTreeToTree : Option Tree → Tree → DiffOpts → List (GitDelta × List GitHunk)

/-- git's zero oid (`Oid::is_zero`). -/
def zeroOid : Sha1Hash := sha1Default

/-- `diff_delta_filename` of `filesystem.rs` (both panics modelled as
errors). -/
def diffDeltaFilename (delta : GitDelta) : Except String String :=
  match delta.oldFile.path, delta.newFile.path with
  | none, none => Except.error "expected at least one side of diff to be non-empty"
  | none, some p => Except.ok p
  | some p, none => Except.ok p
  | some po, some pn =>
    if po = pn then Except.ok po else Except.error "expected no renames or moves"

/-- `to_file_key` of `filesystem.rs`: a zero oid becomes `None`. -/
def toFileKey (filename : String) (oid : Sha1Hash) : Option FileKey :=
  if oid = zeroOid then none else some ⟨filename, oid⟩

/-- The `diffs` map of `diff_with_parent` (keyed by the `(old, new)` pair,
hunks in push order), modelled as an association list. -/
abbrev DiffGroups := List ((Option FileKey × Option FileKey) × List Hunk)

/-- `diffs.entry((old, new)).or_insert(Vec::new()).push(hunk)`. -/
def pushGroup : DiffGroups → (Option FileKey × Option FileKey) → Hunk → DiffGroups
  | [], key, h => [(key, [h])]
  | (k, hs) :: rest, key, h =>
    if k = key then (k, hs ++ [h]) :: rest else (k, hs) :: pushGroup rest key h

/-- The hunk callback of `diff.foreach`, applied to one delta's hunks:
pathspec filter, status check (a status outside Added/Deleted/Modified
panics), then grouping. -/
def processHunks (matchesPath : String → Bool) (delta : GitDelta) :
    List GitHunk → DiffGroups → Except String DiffGroups
  | [], groups => Except.ok groups
  | h :: rest, groups =>
    match diffDeltaFilename delta with
    | Except.error e => Except.error e
    | Except.ok filename =>
      if matchesPath filename then
        match delta.status with
        | .Other _ => Except.error "unsupported diff status"
        | _ =>
          processHunks matchesPath delta rest
            (pushGroup groups
              (toFileKey filename delta.oldFile.oid,
               toFileKey filename delta.newFile.oid)
              (Hunk.fromGit h.oldStart h.oldLines h.newStart h.newLines))
      else processHunks matchesPath delta rest groups

/-- `diff.foreach` over every delta. -/
def processDeltas (matchesPath : String → Bool) :
    List (GitDelta × List GitHunk) → DiffGroups → Except String DiffGroups
  | [], groups => Except.ok groups
  | (d, hs) :: rest, groups =>
    match processHunks matchesPath d hs groups with
    | Except.error e => Except.error e
    | Except.ok groups2 => processDeltas matchesPath rest groups2

/-- Derived `Ord` of `Option<FileKey>` (`None` first). -/
def optFileKeyCmp : Option FileKey → Option FileKey → Ordering
  | none, none => .eq
  | none, some _ => .lt
  | some _, none => .gt
  | some a, some b => fileKeyCmp a b

/-- Derived `Ord` of `PartialSpan` (variant order, then fields; the `Whole`
fields use the source's `Span` ordering). -/
def partialSpanCmp : PartialSpan → PartialSpan → Ordering
  | .Row s1 e1, .Row s2 e2 => (compare s1 s2).then (compare e1 e2)
  | .Row _ _, .Whole _ => .lt
  | .Whole _, .Row _ _ => .gt
  | .Whole a, .Whole b => spanCmp a b

/-- Derived `Ord` of `Hunk`. -/
def hunkCmp (a b : Hunk) : Ordering :=
  (partialSpanCmp a.old b.old).then (partialSpanCmp a.new b.new)

/-- Lexicographic list comparison (`Vec`'s derived `Ord`). -/
def listCmpWith (f : α → α → Ordering) : List α → List α → Ordering
  | [], [] => .eq
  | [], _ :: _ => .lt
  | _ :: _, [] => .gt
  | a :: as', b :: bs' => (f a b).then (listCmpWith f as' bs')

/-- Derived `Ord` of `Diff`. -/
def diffCmp (a b : Diff) : Ordering :=
  (compare a.commitId b.commitId).then
    ((optFileKeyCmp a.old b.old).then
      ((optFileKeyCmp a.new b.new).then (listCmpWith hunkCmp a.hunks b.hunks)))

/-- The boolean order used to model `.sorted()` on `Diff`s. -/
def diffLe (a b : Diff) : Bool :=
  match diffCmp a b with
  | .gt => false
  | _ => true

/-- The final line of `diff_with_parent`: one `Diff` per group, sorted
(`Itertools::sorted`, stable, modelled by the stable `insertionSort`). -/
def mkDiffs (commitId : CommitId) (groups : DiffGroups) : List Diff :=
  List.insertionSort (fun a b => diffLe a b = true)
    (groups.map (fun g => Diff.mk commitId g.1.1 g.1.2 g.2))

/-- `diff_with_parent` of `filesystem.rs`: zero parents diff against the
empty (absent) tree; one parent diff against its tree; two or more parents
return the empty list; the options always ignore filemode and use zero
context lines. -/
def diffWithParent {Tree : Type} (repo : GitRepo Tree) (commitId : CommitId)
    (matchesPath : String → Bool) : Except String (List Diff) :=
  match repo.findCommit commitId with
  | none => Except.error "commit not found"
  | some commit =>
    let opts := (DiffOpts.new.withIgnoreFilemode true).withContextLines 0
    match commit.parentTrees with
    | [] =>
      match processDeltas matchesPath (repo.diffTreeToTree none commit.tree opts) [] with
      | Except.error e => Except.error e
      | Except.ok groups => Except.ok (mkDiffs commitId groups)
    | [p] =>
      match processDeltas matchesPath (repo.diffTreeToTree (some p) commit.tree opts) [] with
      | Except.error e => Except.error e
      | Except.ok groups => Except.ok (mkDiffs commitId groups)
    | _ => Except.ok []

/-! ## Specification vocabulary for simple-id stability

`IsChain caps c ch` says that `ch` is the parent/name/kind chain of capture
`c` within the capture list `caps`, read through the source's own
`find_parent_id`; `simpleIdOfChain` is the id such a chain determines.
`TopoOK` states the order `into_entity_set` establishes by sorting: every
capture's parent occurs earlier in the list (and capture ids, being `HashMap`
keys, are distinct). -/

/-- The parent/name/kind chain (innermost first) of a capture, via
`find_parent_id`. -/
inductive IsChain (caps : List Capture) : Capture → List (String × EntityKind) → Prop
  | root (c : Capture) (hnone : findParentId c (caps.map (·.id)) = none) :
      IsChain caps c [(c.name, c.kind)]
  | step (c p : Capture) (pid : Nat) (ch : List (String × EntityKind))
      (hsome : findParentId c (caps.map (·.id)) = some pid)
      (hp : p ∈ caps) (hpid : p.id = pid) (hch : IsChain caps p ch) :
      IsChain caps c ((c.name, c.kind) :: ch)

/-- The simple id a parent/name/kind chain determines. -/
def simpleIdOfChain : List (String × EntityKind) → Option SimpleEntityId
  | [] => none
  | (n, k) :: rest => some (SimpleEntityId.new (simpleIdOfChain rest) n k)

/-- Position `i`'s capture either has no parent or its parent capture occurs
strictly earlier in the list. -/
def topoParentEarlier (caps : List Capture) (i : Nat) : Bool :=
  match findParentId (caps.getD i default) (caps.map (·.id)) with
  | none => true
  | some pid => (caps.take i).any (fun p => p.id = pid)

/-- Every capture's parent (per `find_parent_id`) occurs strictly earlier in
the list, and capture ids are distinct: exactly what the `topo_key` sort of
`into_entity_set` establishes before the loop runs. -/
abbrev TopoOK (caps : List Capture) : Prop :=
  (caps.map (·.id)).Nodup ∧ ∀ i, i < caps.length → topoParentEarlier caps i = true

/-! ## Concrete instances used to settle claims -/

/-- Entries are pairwise non-overlapping (the sparse-index invariant the
spec states). -/
abbrev entriesDisjoint (v : SparseVec α) : Prop :=
  v.Pairwise (fun a b => a.key.stop < b.key.start ∨ b.key.stop < a.key.start)

/-- The old file of scenario S3: ten identical lines. -/
def s3OldContent : String := "a\na\na\na\na\na\na\na\na\na\n"

/-- The new file of scenario S3: lines 3..5 replaced by four new lines. -/
def s3NewContent : String := "a\na\nb\nb\nb\nb\na\na\na\na\na\n"

/-- The old `FileKey` of scenario S3. -/
def s3OldKey : FileKey := ⟨"f.txt", ContentId.fromContent s3OldContent⟩

/-- The new `FileKey` of scenario S3. -/
def s3NewKey : FileKey := ⟨"f.txt", ContentId.fromContent s3NewContent⟩

/-- The entity cache of scenario S3: both sides fall back to the file-level
singleton (the filenames select no registered language). -/
def s3EntitySets : List (FileKey × EntitySet) :=
  [(s3OldKey, toSingletonEntitySet "f.txt" s3OldContent),
   (s3NewKey, toSingletonEntitySet "f.txt" s3NewContent)]

/-- The Modified diff of scenario S3: git reports the hunk
`old_start=3, old_lines=3, new_start=3, new_lines=4`, which `Hunk::from_git`
turns into `old = Row(2, 5)`, `new = Row(2, 6)`. -/
def s3Diff : Diff := ⟨7, some s3OldKey, some s3NewKey, [Hunk.fromGit 3 3 3 4]⟩

/-- A shared content id for the nested-entity example. -/
def exCid : ContentId := ContentId.fromContent "x"

/-- Nested-entity example: the root file entity (rows 0..20). -/
def exRoot : Entity :=
  Entity.new none "f.java" .File ⟨⟨0, 0, 0⟩, ⟨100, 20, 0⟩⟩ exCid
    (SimpleEntityId.new none "f.java" .File)

/-- Nested-entity example: class `A`, child of the root, rows 0..3. -/
def exA : Entity :=
  Entity.new (some exRoot.id) "A" .Class ⟨⟨5, 0, 5⟩, ⟨40, 3, 1⟩⟩ exCid
    (SimpleEntityId.new (some exRoot.simpleId) "A" .Class)

/-- Nested-entity example: class `B`, child of the root, rows 5..9. -/
def exB : Entity :=
  Entity.new (some exRoot.id) "B" .Class ⟨⟨50, 5, 0⟩, ⟨80, 9, 1⟩⟩ exCid
    (SimpleEntityId.new (some exRoot.simpleId) "B" .Class)

/-- Nested-entity example: class `C`, child of `A`, rows 0..1 (innermost at
row 0). -/
def exC : Entity :=
  Entity.new (some exA.id) "C" .Class ⟨⟨12, 0, 12⟩, ⟨25, 1, 3⟩⟩ exCid
    (SimpleEntityId.new (some exA.simpleId) "C" .Class)

/-- The location table built from the topologically ordered nested-entity
example (parents strictly before children). -/
def exTable : LocationTable := LocationTable.fromTopoSlice [exRoot, exA, exB, exC]

/-- Revision 1 of the stability example: the root capture of `f.java`. -/
def w1Root : Capture := ⟨1, [], "f.java", .File, ⟨⟨0, 0, 0⟩, ⟨30, 4, 0⟩⟩⟩

/-- Revision 1 of the stability example: class `A` under the root. -/
def w1A : Capture := ⟨5, [1], "A", .Class, ⟨⟨2, 1, 0⟩, ⟨20, 3, 1⟩⟩⟩

/-- Revision 2 of the stability example: the root capture of `f.java`, with
different node ids and span. -/
def w2Root : Capture := ⟨10, [], "f.java", .File, ⟨⟨0, 0, 0⟩, ⟨99, 9, 2⟩⟩⟩

/-- Revision 2 of the stability example: class `A`, different node ids, span
and ancestor chain (node 17 is not a capture, so the parent is node 10). -/
def w2A : Capture := ⟨20, [17, 10], "A", .Class, ⟨⟨7, 2, 0⟩, ⟨60, 8, 1⟩⟩⟩

/-- The shared parent/name/kind chain of class `A` in both revisions. -/
def wChain : List (String × EntityKind) := [("A", .Class), ("f.java", .File)]

/-! # Theorems -/

/-- Claim C1 (code_bug): at the spec's own scenario S3 — a Modified diff with
the hunk `old = Row(2, 5)`, `new = Row(2, 6)` over ten- and eleven-line
singleton files — change attribution emits one Change with `adds = 4` and
`dels = 5`, not `dels = 3` and `adds = 4` as the claim states: the old-side
and new-side counts are passed to `Change::new`'s `adds`/`dels` parameters in
swapped order, and `get_overlaps` counts the half-open hunk end row once too
often.  The sum of `dels` is 5, not the hunks' old row count 3 (the sum of
`adds` is 4 only because the swapped old-side count 3 + 1 happens to equal
the new row count). -/
theorem changeAccountingS3Eval :
    s3Diff.hunks = [⟨.Row 2 5, .Row 2 6⟩] ∧
    (calcChanges s3EntitySets s3Diff).map (fun ch => (ch.kind, ch.adds, ch.dels)) =
      [(ChangeKind.Modified, 4, 5)] ∧
    ((calcChanges s3EntitySets s3Diff).map (·.dels)).sum = 5 ∧ (5 : Nat) ≠ 3 := by
  decide

/-- Claim C2 (code_bug): after `insert_many(0, 5, a)` then `insert_many(0, 3, b)`
— both with `start ≤ end` — the stored entries are
`[(0, 2^64 - 1, a), (0, 3, b), (4, 5, a)]`: the left clip computes
`start - 1 = 0 - 1`, which wraps to `usize::MAX` in a release build (and
panics in a debug build), so the first two entries overlap and the union of
stored intervals is not the union of the inserted ones. -/
theorem insertManyUnderflowEval :
    SparseVec.insertMany (SparseVec.insertMany ([] : SparseVec Nat) 0 5 0) 0 3 1 =
      [⟨⟨0, usizeMax⟩, 0⟩, ⟨⟨0, 3⟩, 1⟩, ⟨⟨4, 5⟩, 0⟩] ∧
    ¬ entriesDisjoint
        (SparseVec.insertMany (SparseVec.insertMany ([] : SparseVec Nat) 0 5 0) 0 3 1) := by
  constructor
  · decide
  · intro h
    have := (by decide :
      ¬ entriesDisjoint
        ([⟨⟨0, usizeMax⟩, 0⟩, ⟨⟨0, 3⟩, 1⟩, ⟨⟨4, 5⟩, 0⟩] : SparseVec Nat))
    exact this ((by decide :
      SparseVec.insertMany (SparseVec.insertMany ([] : SparseVec Nat) 0 5 0) 0 3 1 =
        [⟨⟨0, usizeMax⟩, 0⟩, ⟨⟨0, 3⟩, 1⟩, ⟨⟨4, 5⟩, 0⟩]) ▸ h)

/-- Claim C3 (code_bug): for the entity set {root ⊃ A(rows 0..3), root ⊃
B(rows 5..9), A ⊃ C(rows 0..1)} inserted in topological order, `find_id(Row 0)`
returns A's id although C is the innermost entity containing row 0: the
child inserts with `start = 0` underflow inside `insert_many` (claim C2) and
corrupt the row index, so the lookup is not innermost. -/
theorem findIdNotInnermostEval :
    exTable.findId (.Row 0) = some exA.id ∧
    exA.id ≠ exC.id ∧
    exC.parentId = some exA.id ∧
    exC.location.start.row = 0 ∧ exC.location.stop.row = 1 ∧
    exA.location.start.row = 0 ∧ exA.location.stop.row = 3 := by
  decide

/-- Claim C4 (code_bug): the `Span` comparison is not an order at all: for the
distinct spans `a = (0,0,0)..(3,0,3)` and `b = (0,0,0)..(5,0,5)` (equal
starts) both `cmp(a, b)` and `cmp(b, a)` return `Less`, because the source
compares `self.end` against `other.start` instead of `other.end`; so the
comparison is neither antisymmetric nor "end descending". -/
theorem spanCmpNotAntisymmetric :
    spanCmp ⟨⟨0, 0, 0⟩, ⟨3, 0, 3⟩⟩ ⟨⟨0, 0, 0⟩, ⟨5, 0, 5⟩⟩ = .lt ∧
    spanCmp ⟨⟨0, 0, 0⟩, ⟨5, 0, 5⟩⟩ ⟨⟨0, 0, 0⟩, ⟨3, 0, 3⟩⟩ = .lt ∧
    (⟨⟨0, 0, 0⟩, ⟨3, 0, 3⟩⟩ : Span) ≠ ⟨⟨0, 0, 0⟩, ⟨5, 0, 5⟩⟩ := by
  decide

/-- Claim C5, counterexample: for `README.md` with content `"hello\n"` the
single fallback entity's span does not end at `(6, 1, 0)`; it ends at
`(6, 0, 6)` (row of the last inclusive-split line, and that line's length). -/
theorem singletonEndPositionCounterexample :
    (toSingletonEntitySet "README.md" "hello\n").entities.map (fun e => e.location.stop) =
      [⟨6, 0, 6⟩] ∧ (⟨6, 0, 6⟩ : Position) ≠ ⟨6, 1, 0⟩ := by
  decide

/-- Claim C5, amended: the file-level singleton fallback produces exactly one
entity of kind `File`, named by the filename, spanning from `(0, 0, 0)` to the
position whose byte is the content length, whose row is the index of the last
line of the inclusive newline split (0 for empty content) and whose column is
that last line's length including its newline; in particular for `"hello\n"`
the end position is `(6, 0, 6)`. -/
theorem toSingletonEntitySetSpec :
    (∀ filename content : String,
      (toSingletonEntitySet filename content).entities =
        [Entity.new none filename EntityKind.File
          ⟨⟨0, 0, 0⟩, singletonEndPosition content⟩
          (ContentId.fromContent content)
          (SimpleEntityId.new none filename EntityKind.File)]) ∧
    singletonEndPosition "hello\n" = ⟨6, 0, 6⟩ := by
  constructor
  · intro filename content
    rfl
  · decide

/-- Claim C7 (code_bug): a filename that selects no registered language (such
as `README.md`) makes the orchestrator's `ensure_entity_sets` panic at
`Lang::of(&f.filename).unwrap()` before any fall-through to the file-level
singleton can happen. -/
theorem ensureEntitySetUnsupportedLangPanics :
    langOf "README.md" = none ∧
    ∀ (tagF : Lang → String → String → Bool → EntitySet) (fileLevel : Bool)
      (content : String),
      ensureEntitySetFile tagF fileLevel "README.md" content =
        Except.error "called Option unwrap on a None value" := by
  exact ⟨rfl, fun _ _ _ => rfl⟩

/-- Helper for claim C9: a successful duplicate check means the filenames are
distinct and none of them was already seen. -/
theorem checkUniqueFilenamesOk {l : List FileKey} {seen : List String}
    (h : checkUniqueFilenames l seen = Except.ok ()) :
    (l.map (·.filename)).Nodup ∧ ∀ x ∈ l, x.filename ∉ seen := by
  induction l generalizing seen with
  | nil => exact ⟨List.nodup_nil, by simp⟩
  | cons k rest ih =>
    unfold checkUniqueFilenames at h
    by_cases hk : k.filename ∈ seen
    · simp [hk] at h
    · rw [if_neg hk] at h
      obtain ⟨hnodup, hmem⟩ := ih h
      refine ⟨List.nodup_cons.mpr ⟨?_, hnodup⟩, ?_⟩
      · intro hin
        obtain ⟨x, hx, hfx⟩ := List.mem_map.mp hin
        have := hmem x hx
        simp [hfx] at this
      · intro x hx
        rcases List.mem_cons.mp hx with rfl | hx'
        · exact hk
        · have := hmem x hx'
          intro hseen
          exact this (List.mem_cons_of_mem _ hseen)

/-- Claim C9: a successfully constructed `FileSet` has pairwise-distinct
filenames, and nothing was deduplicated (its key list is as long as the
input); duplicates make the constructor fail instead. -/
theorem fileSetNewUniqueFilenames (keys : List FileKey) (fs : FileSet)
    (h : FileSet.new keys = Except.ok fs) :
    fs.fileKeys.Pairwise (fun a b => a.filename ≠ b.filename) ∧
    fs.fileKeys.length = keys.length := by
  simp only [FileSet.new] at h
  cases hc : checkUniqueFilenames
      (List.insertionSort (fun a b => fileKeyLe a b = true) keys) [] with
  | error e => rw [hc] at h; simp [Except.map] at h
  | ok u =>
    cases u
    rw [hc] at h
    simp only [Except.map] at h
    cases h
    obtain ⟨hnodup, -⟩ := checkUniqueFilenamesOk hc
    constructor
    · rw [List.Nodup, List.pairwise_map] at hnodup
      exact hnodup
    · exact List.length_insertionSort _ _

/-- Claim C9, witness: the constructor succeeds on one concrete key list and
the theorem's conclusions hold there. -/
theorem fileSetNewUniqueFilenamesWitness :
    (FileSet.mk [⟨"a.c", [1]⟩]).fileKeys.Pairwise (fun a b => a.filename ≠ b.filename) ∧
    (FileSet.mk [⟨"a.c", [1]⟩]).fileKeys.length = [(⟨"a.c", [1]⟩ : FileKey)].length :=
  fileSetNewUniqueFilenames [⟨"a.c", [1]⟩] ⟨[⟨"a.c", [1]⟩]⟩ rfl

/-- Claim C10: `Pathspec::matches` always hands the underlying matcher the
`IGNORE_CASE` flag, so whenever the matcher treats same-lowercase paths alike
under that flag (the flag's contract), two paths differing only in letter
case are kept or dropped together. -/
theorem pathspecMatchesCaseInsensitive
    (matchesPath : List String → String → PathspecFlags → Bool)
    (ps : Pathspec) (p1 p2 : String)
    (hmp : ∀ (pats : List String) (q1 q2 : String) (f : PathspecFlags),
      f.ignoreCase = true → lowerChars q1 = lowerChars q2 →
      matchesPath pats q1 f = matchesPath pats q2 f)
    (hp : lowerChars p1 = lowerChars p2) :
    Pathspec.matchesWith matchesPath ps p1 = Pathspec.matchesWith matchesPath ps p2 ∧
    ignoreCaseFlag.ignoreCase = true :=
  ⟨hmp ps.patterns p1 p2 ignoreCaseFlag rfl hp, rfl⟩

/-- Claim C10, witness: with a concrete case-insensitive matcher and the
pattern `src/main.c`, the path `SRC/Main.C` is matched exactly like
`src/main.c`. -/
theorem pathspecMatchesCaseInsensitiveWitness :
    Pathspec.matchesWith
        (fun pats q f =>
          pats.contains (if f.ignoreCase then String.mk (lowerChars q) else q))
        ⟨["src/main.c"]⟩ "SRC/Main.C" =
      Pathspec.matchesWith
        (fun pats q f =>
          pats.contains (if f.ignoreCase then String.mk (lowerChars q) else q))
        ⟨["src/main.c"]⟩ "src/main.c" ∧
    ignoreCaseFlag.ignoreCase = true :=
  pathspecMatchesCaseInsensitive
    (fun pats q f => pats.contains (if f.ignoreCase then String.mk (lowerChars q) else q))
    ⟨["src/main.c"]⟩ "SRC/Main.C" "src/main.c"
    (fun _ _ _ _ hf hq => by simp only [hf, if_true, hq])
    (by decide)

/-- Helper for claim C6: pushing a hunk under a key whose old side is `none`
preserves "every group's old side is `none`". -/
theorem pushGroupOldNone (groups : DiffGroups)
    (key : Option FileKey × Option FileKey) (h : Hunk)
    (hg : ∀ g ∈ groups, g.1.1 = none) (hk : key.1 = none) :
    ∀ g ∈ pushGroup groups key h, g.1.1 = none := by
  induction groups with
  | nil =>
    intro g hgmem
    simp only [pushGroup, List.mem_singleton] at hgmem
    subst hgmem
    exact hk
  | cons a rest ih =>
    obtain ⟨k, hs⟩ := a
    intro g hgmem
    simp only [pushGroup] at hgmem
    by_cases hke : k = key
    · rw [if_pos hke] at hgmem
      rcases List.mem_cons.mp hgmem with rfl | hgmem'
      · exact hke ▸ hk
      · exact hg g (List.mem_cons_of_mem _ hgmem')
    · rw [if_neg hke] at hgmem
      rcases List.mem_cons.mp hgmem with rfl | hgmem'
      · exact hg ⟨k, hs⟩ (List.mem_cons_self _ _)
      · exact ih (fun g' hg' => hg g' (List.mem_cons_of_mem _ hg')) g hgmem'

/-- Helper for claim C6: over a delta whose old oid is the zero oid, the hunk
callback only produces groups whose old side is `none`. -/
theorem processHunksOldNone (m : String → Bool) (delta : GitDelta)
    (hz : delta.oldFile.oid = zeroOid) :
    ∀ (hs : List GitHunk) (groups groups' : DiffGroups),
      (∀ g ∈ groups, g.1.1 = none) →
      processHunks m delta hs groups = Except.ok groups' →
      ∀ g ∈ groups', g.1.1 = none := by
  intro hs
  induction hs with
  | nil =>
    intro groups groups' hg hp
    unfold processHunks at hp
    cases hp
    exact hg
  | cons h rest ih =>
    intro groups groups' hg hp
    unfold processHunks at hp
    split at hp
    · cases hp
    · split at hp
      · split at hp
        · cases hp
        · exact ih _ _ (pushGroupOldNone _ _ _ hg (by simp [toFileKey, hz])) hp
      · exact ih _ _ hg hp

/-- Helper for claim C6: over deltas whose old oids are all zero, `foreach`
only produces groups whose old side is `none`. -/
theorem processDeltasOldNone (m : String → Bool) :
    ∀ (pairs : List (GitDelta × List GitHunk)) (groups groups' : DiffGroups),
      (∀ p ∈ pairs, p.1.oldFile.oid = zeroOid) →
      (∀ g ∈ groups, g.1.1 = none) →
      processDeltas m pairs groups = Except.ok groups' →
      ∀ g ∈ groups', g.1.1 = none := by
  intro pairs
  induction pairs with
  | nil =>
    intro groups groups' _ hg hp
    unfold processDeltas at hp
    cases hp
    exact hg
  | cons pair rest ih =>
    obtain ⟨d, hs⟩ := pair
    intro groups groups' hpz hg hp
    unfold processDeltas at hp
    split at hp
    · cases hp
    · rename_i groups2 hph
      have hd : d.oldFile.oid = zeroOid := hpz ⟨d, hs⟩ (List.mem_cons_self _ _)
      have hg2 := processHunksOldNone m d hd hs groups groups2 hg hph
      exact ih _ _ (fun p hpmem => hpz p (List.mem_cons_of_mem _ hpmem)) hg2 hp

/-- Claim C6: `diff_with_parent` builds its options with filemode ignored and
zero context lines; a commit with two or more parents yields the empty diff
list; a commit with one parent yields the tree-to-tree diff against that
parent's tree; and for a root commit (no parents, diffed against the absent
tree), given git's guarantee that such deltas carry the zero oid on the old
side, every produced `Diff` has `old = none`. -/
theorem diffWithParentParentDispatch {Tree : Type} (repo : GitRepo Tree)
    (cid : CommitId) (m : String → Bool) (commit : GitCommit Tree)
    (hc : repo.findCommit cid = some commit) :
    ((DiffOpts.new.withIgnoreFilemode true).withContextLines 0).ignoreFilemode = true ∧
    ((DiffOpts.new.withIgnoreFilemode true).withContextLines 0).contextLines = 0 ∧
    (2 ≤ commit.parentTrees.length → diffWithParent repo cid m = Except.ok []) ∧
    (∀ pt, commit.parentTrees = [pt] →
      diffWithParent repo cid m =
        (match processDeltas m
            (repo.diffTreeToTree (some pt) commit.tree
              ((DiffOpts.new.withIgnoreFilemode true).withContextLines 0)) [] with
        | Except.error e => Except.error e
        | Except.ok groups => Except.ok (mkDiffs cid groups))) ∧
    (commit.parentTrees = [] →
      (∀ p ∈ repo.diffTreeToTree none commit.tree
          ((DiffOpts.new.withIgnoreFilemode true).withContextLines 0),
        p.1.oldFile.oid = zeroOid) →
      ∀ ds, diffWithParent repo cid m = Except.ok ds → ∀ d ∈ ds, d.old = none) := by
  obtain ⟨pts, tr⟩ := commit
  refine ⟨rfl, rfl, ?_, ?_, ?_⟩
  · intro h2
    rcases pts with _ | ⟨p, _ | ⟨q, rest⟩⟩
    · simp at h2
    · simp at h2
    · simp only [diffWithParent, hc]
  · intro pt hpt
    cases hpt
    simp only [diffWithParent, hc]
  · intro hnil hz ds hds d hd
    cases hnil
    simp only [diffWithParent, hc] at hds
    split at hds
    · cases hds
    · rename_i groups hpd
      cases hds
      have hgnone := processDeltasOldNone m _ [] groups hz (by simp) hpd
      rw [mkDiffs, List.mem_insertionSort] at hd
      obtain ⟨g, hg, rfl⟩ := List.mem_map.mp hd
      exact hgnone g hg

/-- Claim C6, witness: a concrete repository whose commit 1 is a merge commit
(two parents) diffs to the empty list. -/
theorem diffWithParentParentDispatchWitness :
    diffWithParent
      (GitRepo.mk (fun c => if c = 1 then some (GitCommit.mk [(), ()] ()) else none)
        (fun _ _ _ => []) : GitRepo Unit) 1 (fun _ => true) = Except.ok [] := by
  have h := diffWithParentParentDispatch
    (GitRepo.mk (fun c => if c = 1 then some (GitCommit.mk [(), ()] ()) else none)
      (fun _ _ _ => [])) 1 (fun _ => true) (GitCommit.mk [(), ()] ()) rfl
  exact h.2.2.1 (by decide)

/-- Helper for claim C8: looking up the key just inserted at the head of the
map. -/
theorem lookupHashConsSelf (m : List (Nat × Sha1Hash)) (k : Nat) (v : Sha1Hash) :
    lookupHash ((k, v) :: m) k = some v := by
  simp [lookupHash, List.find?_cons]

/-- Helper for claim C8: a head entry with a different key is transparent. -/
theorem lookupHashConsNe (m : List (Nat × Sha1Hash))
    (k1 : Nat) (v1 : Sha1Hash) (k2 : Nat) (h : k1 ≠ k2) :
    lookupHash ((k1, v1) :: m) k2 = lookupHash m k2 := by
  simp [lookupHash, List.find?_cons, h]

/-- Helper for claim C8: what one loop iteration assigns to its own capture's
simple id. -/
theorem lookupStepSelf (ids : List Nat) (cid : ContentId) (st : TagState)
    (c : Capture) :
    lookupHash (intoEntitiesStep ids cid st c).simpleIds c.id =
      some (SimpleEntityId.new
        ((findParentId c ids).map
          (fun pid => (lookupHash st.simpleIds pid).getD sha1Default))
        c.name c.kind) := by
  simp only [intoEntitiesStep]
  exact lookupHashConsSelf _ _ _

/-- Helper for claim C8: folding over captures with fresh ids does not change
an existing key's simple id. -/
theorem lookupFoldlStable (ids : List Nat) (cid : ContentId) :
    ∀ (l : List Capture) (st : TagState) (k : Nat), (∀ x ∈ l, x.id ≠ k) →
      lookupHash (List.foldl (intoEntitiesStep ids cid) st l).simpleIds k =
        lookupHash st.simpleIds k := by
  intro l
  induction l with
  | nil => intro st k _; rfl
  | cons x l ih =>
    intro st k hk
    rw [List.foldl_cons, ih _ k (fun y hy => hk y (List.mem_cons_of_mem _ hy))]
    simp only [intoEntitiesStep]
    exact lookupHashConsNe _ _ _ _ (hk x (List.mem_cons_self _ _))

/-- Helper for claim C8: indexing an append at the left part's length. -/
theorem getDAppendLen (A B : List Capture) (c : Capture) :
    (A ++ c :: B).getD A.length default = c := by
  induction A with
  | nil => rfl
  | cons a A ih => rw [List.cons_append, List.length_cons, List.getD_cons_succ]; exact ih

/-- Helper for claim C8: with distinct capture ids, nothing to the right of
`c` shares its id. -/
theorem neRightOfNodup {caps A B : List Capture} {c : Capture}
    (hN : (caps.map (·.id)).Nodup) (h : caps = A ++ c :: B) :
    ∀ x ∈ B, x.id ≠ c.id := by
  subst h
  rw [List.map_append] at hN
  have h2 := hN.of_append_right
  rw [List.map_cons, List.nodup_cons] at h2
  intro x hx hxc
  exact h2.1 (hxc ▸ List.mem_map_of_mem (·.id) hx)

/-- Helper for claim C8: a chain is never empty, so its simple id exists. -/
theorem simpleIdOfChainIsSome {caps : List Capture} {p : Capture}
    {ch : List (String × EntityKind)} (h : IsChain caps p ch) :
    ∃ s, simpleIdOfChain ch = some s := by
  cases h with
  | root _ _ => exact ⟨_, rfl⟩
  | step _ _ _ _ _ _ _ _ => exact ⟨_, rfl⟩

/-- Helper for claim C8, the central invariant: in a topologically ordered
capture list, the simple id the `into_entity_set` loop assigns to a capture is
exactly the one determined by its parent/name/kind chain — independently of
the content id and of every span. -/
theorem assignedSimpleIdOfChain (caps : List Capture) (cid : ContentId)
    (hT : TopoOK caps) :
    ∀ (c : Capture) (ch : List (String × EntityKind)), IsChain caps c ch →
    ∀ pre suf, caps = pre ++ suf → c ∈ pre →
      lookupHash (List.foldl (intoEntitiesStep (caps.map (·.id)) cid)
        ⟨[], [], []⟩ pre).simpleIds c.id = simpleIdOfChain ch := by
  intro c ch hch
  induction hch with
  | root c hnone =>
    intro pre suf hcaps hcpre
    obtain ⟨pre₁, pre₂, rfl⟩ := List.append_of_mem hcpre
    have hcaps' : caps = pre₁ ++ c :: (pre₂ ++ suf) := by rw [hcaps]; simp
    rw [List.foldl_append, List.foldl_cons,
      lookupFoldlStable _ _ pre₂ _ c.id (fun x hx =>
        neRightOfNodup hT.1 hcaps' x (List.mem_append_left _ hx)),
      lookupStepSelf, hnone]
    rfl
  | step c p pid ch hsome hp hpid hchp ih =>
    intro pre suf hcaps hcpre
    obtain ⟨pre₁, pre₂, rfl⟩ := List.append_of_mem hcpre
    have hcaps' : caps = pre₁ ++ c :: (pre₂ ++ suf) := by rw [hcaps]; simp
    have hi : pre₁.length < caps.length := by
      rw [hcaps', List.length_append, List.length_cons]; omega
    have hgetD : caps.getD pre₁.length default = c := by
      rw [hcaps']; exact getDAppendLen _ _ _
    have htake : caps.take pre₁.length = pre₁ := by
      rw [hcaps']; exact List.take_left _ _
    have htopo := hT.2 pre₁.length hi
    rw [topoParentEarlier, hgetD, hsome, htake] at htopo
    obtain ⟨q, hqpre, hqid⟩ := List.any_eq_true.mp htopo
    have hqid' : q.id = pid := of_decide_eq_true hqid
    have hqcaps : q ∈ caps := by
      rw [hcaps']; exact List.mem_append_left _ hqpre
    have hqp : q = p :=
      List.inj_on_of_nodup_map hT.1 hqcaps hp (by rw [hqid', hpid])
    have hpar := ih pre₁ (c :: (pre₂ ++ suf)) hcaps' (hqp ▸ hqpre)
    obtain ⟨s, hs⟩ := simpleIdOfChainIsSome hchp
    rw [List.foldl_append, List.foldl_cons,
      lookupFoldlStable _ _ pre₂ _ c.id (fun x hx =>
        neRightOfNodup hT.1 hcaps' x (List.mem_append_left _ hx)),
      lookupStepSelf, hsome, ← hpid]
    simp only [Option.map_some']
    rw [hpar, hs]
    simp [simpleIdOfChain, hs]

/-- Claim C8: two capture lists (two revisions: different content ids,
different node ids, different spans) that both contain a capture with the
same parent/name/kind chain assign that capture the same SimpleId — the
chain's id — because `SimpleEntityId::new` hashes only the parent simple id,
the name and the kind along the chain. -/
theorem simpleIdStableAcrossRevisions
    (caps1 caps2 : List Capture) (cid1 cid2 : ContentId)
    (c1 c2 : Capture) (ch : List (String × EntityKind))
    (h1 : TopoOK caps1) (h2 : TopoOK caps2)
    (hm1 : c1 ∈ caps1) (hm2 : c2 ∈ caps2)
    (hch1 : IsChain caps1 c1 ch) (hch2 : IsChain caps2 c2 ch) :
    lookupHash (intoEntitiesGo (caps1.map (·.id)) cid1 caps1).simpleIds c1.id =
      simpleIdOfChain ch ∧
    lookupHash (intoEntitiesGo (caps2.map (·.id)) cid2 caps2).simpleIds c2.id =
      lookupHash (intoEntitiesGo (caps1.map (·.id)) cid1 caps1).simpleIds c1.id := by
  have e1 := assignedSimpleIdOfChain caps1 cid1 h1 c1 ch hch1 caps1 []
    (List.append_nil _).symm hm1
  have e2 := assignedSimpleIdOfChain caps2 cid2 h2 c2 ch hch2 caps2 []
    (List.append_nil _).symm hm2
  exact ⟨e1, by rw [intoEntitiesGo, intoEntitiesGo, e1, e2]⟩

/-- Claim C8, witness: class `A` inside `f.java` in two concrete revisions
with different contents, node ids and spans gets the same simple id, the one
of its chain. -/
theorem simpleIdStableAcrossRevisionsWitness :
    lookupHash (intoEntitiesGo ([w1Root, w1A].map (·.id))
        (ContentId.fromContent "class A {}") [w1Root, w1A]).simpleIds w1A.id =
      simpleIdOfChain wChain ∧
    lookupHash (intoEntitiesGo ([w2Root, w2A].map (·.id))
        (ContentId.fromContent "  class A { }") [w2Root, w2A]).simpleIds w2A.id =
      lookupHash (intoEntitiesGo ([w1Root, w1A].map (·.id))
        (ContentId.fromContent "class A {}") [w1Root, w1A]).simpleIds w1A.id :=
  simpleIdStableAcrossRevisions [w1Root, w1A] [w2Root, w2A]
    (ContentId.fromContent "class A {}") (ContentId.fromContent "  class A { }")
    w1A w2A wChain (by decide) (by decide) (by decide) (by decide)
    (IsChain.step w1A w1Root 1 [("f.java", EntityKind.File)]
      (by decide) (by decide) (by decide) (IsChain.root w1Root (by decide)))
    (IsChain.step w2A w2Root 10 [("f.java", EntityKind.File)]
      (by decide) (by decide) (by decide) (IsChain.root w2Root (by decide)))

end Neodepends
